import Mathlib

/-!
Verification of the M-Pesa SMS parsing core (`app/parser.py`).

The Python source is shallowly embedded: each extractor's regular expression is
compiled by hand into a total Lean function over `List Char` with Python
`re.search` semantics (leftmost starting position wins; at a fixed position,
greedy / lazy quantifiers are resolved in backtracking priority order).
Monetary values are modelled as exact decimals, following the spec's data
model of non-negative decimals: the captured digit string is converted
verbatim to a rational, with `float`'s `ValueError` modelled as
`Option.none` and its overflow behaviour kept observable: a decimal at or
above the binary64 overflow threshold `2^1024 - 2^970` converts to positive
infinity (`FloatVal.inf`), exactly as Python `float` does on such strings.
Rounding within the finite range is not modelled (the spec prescribes
verbatim decimal semantics); NaN is unreachable from digit-string captures,
which the value type reflects.
-/

namespace Mpesa

/-- Python `\s` (ASCII range): space, tab, newline, carriage return,
vertical tab, form feed. -/
def isWs (c : Char) : Bool :=
  c == ' ' || c == '\t' || c == '\n' || c == '\r' || c == '\x0b' || c == '\x0c'

/-- Python `\w` (ASCII range): letters, digits, underscore.  Used for the
`\b` word-boundary assertion of the transaction-code pattern. -/
def isWordChar (c : Char) : Bool := c.isAlphanum || c == '_'

/-- A character of the class `[A-Z0-9]`. -/
def upperDigit (c : Char) : Bool := c.isUpper || c.isDigit

/-- A character of the class `[\d,]`. -/
def digitComma (c : Char) : Bool := c.isDigit || c == ','

/-- `startsWithL n h`: the word `n` occurs at the very start of `h`
(case-sensitive), i.e. Python `h.startswith(n)`. -/
def startsWithL : List Char → List Char → Bool
  | [], _ => true
  | _ :: _, [] => false
  | a :: ns, b :: hs => a == b && startsWithL ns hs

/-- Python's substring test `n in h` (case-sensitive). -/
def containsSub (n : List Char) : List Char → Bool
  | [] => startsWithL n []
  | c :: t => startsWithL n (c :: t) || containsSub n t

/-- Case-insensitive `startsWithL` (ASCII case folding, as used by
`re.IGNORECASE` on the parser's ASCII pattern literals). -/
def startsWithCI : List Char → List Char → Bool
  | [], _ => true
  | _ :: _, [] => false
  | a :: ns, b :: hs => a.toLower == b.toLower && startsWithCI ns hs

/-- Case-insensitive substring occurrence. -/
def containsCI (n : List Char) : List Char → Bool
  | [] => startsWithCI n []
  | c :: t => startsWithCI n (c :: t) || containsCI n t

/-- `re.search`: try a match anchored at each start position from left to
right (including the empty suffix at the end of the string); the first
position at which the pattern matches wins. -/
def searchL (f : List Char → Option (List Char)) : List Char → Option (List Char)
  | [] => f []
  | c :: rest =>
    match f (c :: rest) with
    | some r => some r
    | none => searchL f rest

/-- The digits of a captured numeric string, read as a natural number. -/
def natOfDigits (l : List Char) : Nat :=
  l.foldl (fun a c => 10 * a + (c.toNat - '0'.toNat)) 0

/-- The result of a successful Python `float(s)` on a digit-string capture:
either a finite value (modelled as its exact decimal, a rational) or
positive infinity, which `float` returns — without raising — for decimal
strings at or above the binary64 overflow threshold.  No sign and no NaN
are reachable from the `[\d,]+\.?\d*` captures. -/
inductive FloatVal where
  | fin (q : ℚ)
  | inf
deriving DecidableEq, Repr

/-- Non-negativity of an observable float value; positive infinity counts
as non-negative. -/
def FloatVal.Nonneg : FloatVal → Prop
  | .fin q => 0 ≤ q
  | .inf => True

/-- The exact overflow threshold of round-to-nearest-even binary64: a
decimal value `v` satisfies `float(str(v)) = inf` iff
`2^1024 - 2^970 ≤ v` (the halfway point above the largest finite double
rounds up, to overflow). -/
def overflowBound : ℚ := mkRat ((2 ^ 1024 - 2 ^ 970 : Nat) : Int) 1

/-- Conversion of the exact decimal value to the observable `float`
result: finite below the overflow threshold, positive infinity at or
above it. -/
def clampDouble (q : ℚ) : FloatVal :=
  if overflowBound ≤ q then FloatVal.inf else FloatVal.fin q

/-- Python `float(s)` on the strings this parser can feed it (digits and at
most one decimal point; anything else, or no digit at all, raises
`ValueError`, modelled as `none`).  The value is the exact decimal,
clamped to positive infinity at the binary64 overflow threshold. -/
def pyFloat (l : List Char) : Option FloatVal :=
  let ip := l.takeWhile Char.isDigit
  match l.drop ip.length with
  | [] => if ip.isEmpty then none else some (clampDouble (mkRat (natOfDigits ip) 1))
  | '.' :: fr =>
    let fp := fr.takeWhile Char.isDigit
    if fp.length == fr.length && (!ip.isEmpty || !fp.isEmpty) then
      some (clampDouble
        (mkRat (natOfDigits ip * 10 ^ fp.length + natOfDigits fp) (10 ^ fp.length)))
    else none
  | _ => none

/-- `amount_str.replace(",", "")` followed by `float(amount_str)`. -/
def convNum (c : List Char) : Option FloatVal := pyFloat (c.filter (fun x => x != ','))

/-- The capture of `\s*([\d,]+\.?\d*)` anchored at `l`: skip whitespace,
take the maximal run of digits/commas (which must be non-empty), then an
optional decimal point followed by the maximal run of digits.  Nothing
follows the group in any of the source patterns, so the greedy quantifiers
never backtrack. -/
def numCapture (l : List Char) : Option (List Char) :=
  let l1 := l.dropWhile isWs
  let ds := l1.takeWhile digitComma
  if ds.isEmpty then none
  else
    match l1.drop ds.length with
    | '.' :: r2 => some (ds ++ '.' :: r2.takeWhile Char.isDigit)
    | _ => some ds

/-- `Ksh\s*([\d,]+\.?\d*)` anchored at `r` (the literal `Ksh` must sit at
the start of `r`). -/
def kshNumAt (r : List Char) : Option (List Char) :=
  if startsWithCI ("ksh".data) r then numCapture (r.drop 3) else none

/-- Pattern 1 of `extract_amount`, `Ksh\s*([\d,]+\.?\d*)`, anchored. -/
def amt1At (s : List Char) : Option (List Char) := kshNumAt s

/-- Pattern 2 of `extract_amount`, `KES\s*([\d,]+\.?\d*)`, anchored. -/
def amt2At (s : List Char) : Option (List Char) :=
  if startsWithCI ("kes".data) s then numCapture (s.drop 3) else none

/-- Tail of amount pattern 3 after `of`: `\s+Ksh\s*(...)`. -/
def amt3OfWs (r2 : List Char) : Option (List Char) :=
  if (r2.takeWhile isWs).isEmpty then none
  else kshNumAt (r2.drop (r2.takeWhile isWs).length)

/-- `(?:of\s+)?Ksh\s*(...)`: the greedy optional group is tried first, and
on failure the engine backtracks to the empty alternative. -/
def amt3Of (r1 : List Char) : Option (List Char) :=
  match (if startsWithCI ("of".data) r1 then amt3OfWs (r1.drop 2) else none) with
  | some c => some c
  | none => kshNumAt r1

/-- `\s+(?:of\s+)?Ksh\s*(...)` after the literal `amount`. -/
def amt3Ws (r : List Char) : Option (List Char) :=
  if (r.takeWhile isWs).isEmpty then none
  else amt3Of (r.drop (r.takeWhile isWs).length)

/-- Pattern 3 of `extract_amount`, `amount\s+(?:of\s+)?Ksh\s*(...)`, anchored. -/
def amt3At (s : List Char) : Option (List Char) :=
  if startsWithCI ("amount".data) s then amt3Ws (s.drop 6) else none

/-- The group captured by the first `re.search` match of amount pattern 1. -/
def amtCap1 (l : List Char) : Option (List Char) := searchL amt1At l

/-- The group captured by the first `re.search` match of amount pattern 2. -/
def amtCap2 (l : List Char) : Option (List Char) := searchL amt2At l

/-- The group captured by the first `re.search` match of amount pattern 3. -/
def amtCap3 (l : List Char) : Option (List Char) := searchL amt3At l

/-- `MpesaParser.extract_amount`: try the three patterns in declared order;
for each, take its first match's group, strip commas and convert; a failed
conversion (`ValueError`) falls through to the next pattern, exactly like
the `try/except/continue` in the source. -/
def extract_amount (m : String) : Option FloatVal :=
  match (amtCap1 m.data).bind convNum with
  | some v => some v
  | none =>
    match (amtCap2 m.data).bind convNum with
    | some v => some v
    | none => (amtCap3 m.data).bind convNum

/-- `\b` on the left of the transaction-code pattern.  The character that
follows must be `[A-Z]` (a word character), so the assertion holds exactly
when the preceding character is absent or not a word character. -/
def leftBoundary : Option Char → Bool
  | none => true
  | some c => !isWordChar c

/-- `\b` on the right of the transaction-code pattern.  The character that
precedes is `[A-Z0-9]` (a word character), so the assertion holds exactly
when the next character is absent or not a word character. -/
def rightBoundary : List Char → Bool
  | [] => true
  | c :: _ => !isWordChar c

/-- The body `[A-Z]{2}\d{2}[A-Z0-9]{5,6}` of the transaction-code pattern:
two uppercase letters, two digits, then five or six characters each an
uppercase letter or digit. -/
def shapeCode (c : List Char) : Bool :=
  match c with
  | a :: b :: d :: e :: rest =>
    a.isUpper && b.isUpper && d.isDigit && e.isDigit &&
      (rest.length == 5 || rest.length == 6) && rest.all upperDigit
  | _ => false

/-- `\b([A-Z]{2}\d{2}[A-Z0-9]{5,6})\b` anchored at `l`, with `prev` the
character just before `l`.  The greedy `{5,6}` tries six tail characters
first and falls back to five. -/
def codeAt (prev : Option Char) (l : List Char) : Option (List Char) :=
  if leftBoundary prev && shapeCode (l.take 10) && rightBoundary (l.drop 10) then
    some (l.take 10)
  else if leftBoundary prev && shapeCode (l.take 9) && rightBoundary (l.drop 9) then
    some (l.take 9)
  else none

/-- `re.search` for the transaction-code pattern, threading the previous
character for the word-boundary assertion. -/
def scanCode : Option Char → List Char → Option (List Char)
  | prev, [] => codeAt prev []
  | prev, c :: rest =>
    match codeAt prev (c :: rest) with
    | some r => some r
    | none => scanCode (some c) rest

/-- `MpesaParser.extract_transaction_code`. -/
def extract_transaction_code (m : String) : Option String :=
  (scanCode none m.data).map String.mk

/-- `.*?Ksh\s*([\d,]+\.?\d*)` anchored at the current position: the lazy
star stops at the first position where the rest of the pattern matches,
consuming any character except a newline on the way (Python `.` does not
match `\n`). -/
def kshNumScanNoNl : List Char → Option (List Char)
  | [] => none
  | c :: t =>
    match (if startsWithCI ("ksh".data) (c :: t) then numCapture ((c :: t).drop 3) else none) with
    | some r => some r
    | none => if c == '\n' then none else kshNumScanNoNl t

/-- `.*?balance.*?Ksh\s*(...)` anchored at the current position: the outer
lazy star stops at each occurrence of `balance`; if the rest fails there,
it backtracks past that occurrence and continues. -/
def balThenKshScan : List Char → Option (List Char)
  | [] => none
  | c :: t =>
    match (if startsWithCI ("balance".data) (c :: t) then kshNumScanNoNl ((c :: t).drop 7) else none) with
    | some r => some r
    | none => if c == '\n' then none else balThenKshScan t

/-- `\s+Ksh\s*(...)` after `balance (?:is|was)`. -/
def balWsKsh (r1 : List Char) : Option (List Char) :=
  if (r1.takeWhile isWs).isEmpty then none
  else kshNumAt (r1.drop (r1.takeWhile isWs).length)

/-- `(?:is|was)\s+Ksh\s*(...)`; the two alternatives differ in their first
character, so no backtracking crosses between them. -/
def balIsWas (r : List Char) : Option (List Char) :=
  if startsWithCI ("is".data) r then balWsKsh (r.drop 2)
  else if startsWithCI ("was".data) r then balWsKsh (r.drop 3)
  else none

/-- Pattern 1 of `extract_balance`, `balance (?:is|was)\s+Ksh\s*(...)`, anchored. -/
def bal1At (s : List Char) : Option (List Char) :=
  if startsWithCI ("balance ".data) s then balIsWas (s.drop 8) else none

/-- Pattern 2 of `extract_balance`, `New.*?balance.*?Ksh\s*(...)`, anchored. -/
def bal2At (s : List Char) : Option (List Char) :=
  if startsWithCI ("new".data) s then balThenKshScan (s.drop 3) else none

/-- Pattern 3 of `extract_balance`, `balance.*?Ksh\s*(...)`, anchored. -/
def bal3At (s : List Char) : Option (List Char) :=
  if startsWithCI ("balance".data) s then kshNumScanNoNl (s.drop 7) else none

/-- First `re.search` capture of balance pattern 1. -/
def balCap1 (l : List Char) : Option (List Char) := searchL bal1At l

/-- First `re.search` capture of balance pattern 2. -/
def balCap2 (l : List Char) : Option (List Char) := searchL bal2At l

/-- First `re.search` capture of balance pattern 3. -/
def balCap3 (l : List Char) : Option (List Char) := searchL bal3At l

/-- `MpesaParser.extract_balance`: the three balance patterns in declared
order, with the same strip-commas/convert/fall-through as the amount. -/
def extract_balance (m : String) : Option FloatVal :=
  match (balCap1 m.data).bind convNum with
  | some v => some v
  | none =>
    match (balCap2 m.data).bind convNum with
    | some v => some v
    | none => (balCap3 m.data).bind convNum

/-- The directional-phrase alternation `(?:sent to|paid to|received from)`
anchored at `l`; on success, the rest of the input.  The three alternatives
differ in their first character, so no backtracking crosses between them. -/
def phraseAt (l : List Char) : Option (List Char) :=
  if startsWithCI ("sent to".data) l then some (l.drop 7)
  else if startsWithCI ("paid to".data) l then some (l.drop 7)
  else if startsWithCI ("received from".data) l then some (l.drop 13)
  else none

/-- A character of the class `[A-Z\s]` under `re.IGNORECASE` (so any ASCII
letter, or whitespace). -/
def rcls (c : Char) : Bool := c.isAlpha || isWs c

/-- The terminator `(?:\s+\d|\s+on|\s+Ksh|\.)` of recipient pattern 1,
anchored at `l` (a pure test: it is the last element of the pattern and is
not captured). -/
def termAt (l : List Char) : Bool :=
  let w := l.takeWhile isWs
  let r := l.drop w.length
  (!w.isEmpty && (match r with | c :: _ => c.isDigit | [] => false))
    || (!w.isEmpty && startsWithCI ("on".data) r)
    || (!w.isEmpty && startsWithCI ("ksh".data) r)
    || (match l with | '.' :: _ => true | _ => false)

/-- The lazy group `([A-Z\s]+?)` followed by the terminator: take the
shortest non-empty run of `rcls` characters after which the terminator
matches. -/
def growCap : List Char → Option (List Char)
  | [] => none
  | c :: rest =>
    if rcls c then
      if termAt rest then some [c]
      else
        match growCap rest with
        | some cs => some (c :: cs)
        | none => none
    else none

/-- Backtracking of the greedy `\s+` before the lazy capture group: try
consuming `j` whitespace characters, from the maximal run length down to
one (the capture class also contains whitespace, so shorter runs genuinely
arise). -/
def tryWsCap (r : List Char) : Nat → Option (List Char)
  | 0 => none
  | j + 1 =>
    match growCap (r.drop (j + 1)) with
    | some cs => some cs
    | none => tryWsCap r j

/-- Pattern 1 of `extract_recipient`,
`(?:sent to|paid to|received from)\s+([A-Z\s]+?)(?:\s+\d|\s+on|\s+Ksh|\.)`,
anchored. -/
def rcp1At (l : List Char) : Option (List Char) :=
  match phraseAt l with
  | none => none
  | some r => tryWsCap r (r.takeWhile isWs).length

/-- Pattern 2 of `extract_recipient`,
`(?:sent to|paid to|received from)\s+(\d+)`, anchored. -/
def rcp2At (l : List Char) : Option (List Char) :=
  match phraseAt l with
  | none => none
  | some r =>
    if (r.takeWhile isWs).isEmpty then none
    else
      match (r.drop (r.takeWhile isWs).length).takeWhile Char.isDigit with
      | [] => none
      | d :: ds => some (d :: ds)

/-- Python `str.strip()` (ASCII whitespace). -/
def pyStrip (l : List Char) : List Char :=
  ((l.dropWhile isWs).reverse.dropWhile isWs).reverse

/-- `MpesaParser.extract_recipient`: first pattern that matches wins, and
its group is returned stripped of surrounding whitespace. -/
def extract_recipient (m : String) : Option String :=
  match searchL rcp1At m.data with
  | some c => some (String.mk (pyStrip c))
  | none =>
    match searchL rcp2At m.data with
    | some c => some (String.mk (pyStrip c))
    | none => none

/-- The ordered trigger-phrase table `MpesaParser.TRANSACTION_TYPES`
(Python dicts preserve declaration order). -/
def TRANSACTION_TYPES : List (String × List String) :=
  [("SENT", ["you have sent", "sent to", "paid to", "transferred to"]),
   ("RECEIVED", ["you have received", "received from"]),
   ("WITHDRAWN", ["withdraw", "withdrawn from"]),
   ("BOUGHT", ["bought", "airtime for"]),
   ("BALANCE", ["balance was", "your balance is"]),
   ("REVERSED", ["reversed", "transaction reversed"]),
   ("PAYBILL", ["paid to", "for account"])]

/-- The `for trans_type, keywords in ...` loop of
`determine_transaction_type`: return the first type any of whose keywords
occurs in the lowercased message; `UNKNOWN` if none does. -/
def classifyLoop (lower : List Char) : List (String × List String) → String
  | [] => "UNKNOWN"
  | p :: rest =>
    if p.2.any (fun k => containsSub k.data lower) then p.1 else classifyLoop lower rest

/-- `MpesaParser.determine_transaction_type`. -/
def determine_transaction_type (m : String) : String :=
  classifyLoop (m.data.map Char.toLower) TRANSACTION_TYPES

/-- The record assembled by `MpesaParser.parse` (the spec's
`ParsedTransaction`).  `timestamp` is the time of parse, passed explicitly
since `datetime.utcnow()` is the orchestrator's only effect. -/
structure ParsedTransaction where
  sender : String
  raw_message : String
  transaction_type : String
  amount : Option FloatVal
  transaction_code : Option String
  balance : Option FloatVal
  recipient : Option String
  timestamp : Nat
  parsed_successfully : Bool
deriving DecidableEq, Repr

/-- `MpesaParser.parse`: run the classifier and the four extractors
independently and assemble the result record. -/
def parse (sender message : String) (now : Nat) : ParsedTransaction :=
  { sender := sender
    raw_message := message
    transaction_type := determine_transaction_type message
    amount := extract_amount message
    transaction_code := extract_transaction_code message
    balance := extract_balance message
    recipient := extract_recipient message
    timestamp := now
    parsed_successfully := (extract_amount message).isSome && (extract_transaction_code message).isSome }

/-- Spec-side classifier: the first entry of the declaration-ordered table
any of whose trigger phrases is a substring of the lowercased message;
`UNKNOWN` when no entry matches. -/
def classifierSpec (m : String) : String :=
  match TRANSACTION_TYPES.find? (fun p => p.2.any (fun k => containsSub k.data (m.data.map Char.toLower))) with
  | some p => p.1
  | none => "UNKNOWN"

/-- Spec-side description of a whole-word transaction-code occurrence: the
slice `c` has the structural shape (two uppercase letters, two digits, five
or six uppercase-or-digit characters) and is not embedded in a longer word:
the character before it (the last of `pre`) and the character after it (the
first of `post`) are absent or non-word. -/
def CodeHit (p : Option Char) (c post : List Char) : Prop :=
  shapeCode c = true ∧ leftBoundary p = true ∧ rightBoundary post = true

/-- The character preceding the current suffix: the last char of the
consumed prefix `pre`, or `prev` (the char before the whole segment) when
`pre` is empty. -/
def lastOr (prev : Option Char) : List Char → Option Char
  | [] => prev
  | c :: t => lastOr (some c) t

def msg4 : String :=
  "RK12AB34CD confirmed. You have sent Ksh500.00 to JOHN DOE. New M-PESA balance is Ksh1,234.56."

/-- C1.  `parsed_successfully` is true iff both the amount and the
transaction code are present, for every input pair; it is computed from
exactly those two fields. -/
theorem claim_C1_success_iff_amount_and_code (sender m : String) (now : Nat) :
    (parse sender m now).parsed_successfully = true ↔
      ((parse sender m now).amount.isSome = true ∧
        (parse sender m now).transaction_code.isSome = true) := by
  simp [parse, Bool.and_eq_true]

/-- C2.  `parse` is total: on every input pair (and any parse time) it
returns the assembled record — each field produced by its total extractor,
with extractor failure represented by `none` — so no input raises; in
particular the empty message and non-ASCII text parse to a record with
`parsed_successfully = false`, and a 10001-character message parses to a
record carrying it unchanged. -/
theorem claim_C2_parse_total :
    (∀ (sender m : String) (now : Nat),
      parse sender m now =
        { sender := sender
          raw_message := m
          transaction_type := determine_transaction_type m
          amount := extract_amount m
          transaction_code := extract_transaction_code m
          balance := extract_balance m
          recipient := extract_recipient m
          timestamp := now
          parsed_successfully :=
            (extract_amount m).isSome && (extract_transaction_code m).isSome })
    ∧ (parse "" "" 0).parsed_successfully = false
    ∧ (parse "S" "héllo wörld ☂ na kadhalika" 0).parsed_successfully = false
    ∧ (parse "S" (String.mk (List.replicate 10001 'a')) 0).raw_message =
        String.mk (List.replicate 10001 'a') := by
  refine ⟨fun _ _ _ => rfl, by decide, by decide, rfl⟩

/-- C4, counterexample.  On the claimed scenario message the recipient
field is `none`, not `"JOHN DOE"`: the message contains none of the literal
directional phrases `sent to` / `paid to` / `received from` (it reads
`sent Ksh500.00 to`), so both recipient patterns fail. -/
theorem claim_C4_counterexample :
    (parse "MPESA" msg4 0).recipient ≠ some "JOHN DOE" := by decide

set_option maxRecDepth 8000 in
set_option maxHeartbeats 1600000 in
/-- C4, amended.  On the scenario message, `parse` returns type `SENT`,
amount `500.00`, code `RK12AB34CD`, balance `1234.56`,
`parsed_successfully = true` — and recipient `none`. -/
theorem claim_C4_amended :
    (parse "MPESA" msg4 0).transaction_type = "SENT"
    ∧ (parse "MPESA" msg4 0).amount = some (FloatVal.fin (500 : ℚ))
    ∧ (parse "MPESA" msg4 0).transaction_code = some "RK12AB34CD"
    ∧ (parse "MPESA" msg4 0).balance = some (FloatVal.fin ((123456 : ℚ) / 100))
    ∧ (parse "MPESA" msg4 0).recipient = none
    ∧ (parse "MPESA" msg4 0).parsed_successfully = true := by
  have h56 : ((123456 : ℚ) / 100) = mkRat 123456 100 := by
    rw [Rat.mkRat_eq_div]; norm_num
  refine ⟨by decide, by decide, by decide, ?_, by decide, by decide⟩
  rw [h56]; decide

set_option maxRecDepth 8000 in
set_option maxHeartbeats 1600000 in
/-- C7.  An amount written with multiple thousands separators converts to
the exact decimal value: `Ksh12,345,678.90` yields exactly
`12345678.90 = 1234567890/100`, both from the extractor and through the
assembled record. -/
theorem claim_C7_thousands_separators :
    extract_amount "You have sent Ksh12,345,678.90 to JOHN." =
      some (FloatVal.fin ((1234567890 : ℚ) / 100))
    ∧ (parse "MPESA" "You have sent Ksh12,345,678.90 to JOHN." 0).amount =
        some (FloatVal.fin ((1234567890 : ℚ) / 100)) := by
  have h90 : ((1234567890 : ℚ) / 100) = mkRat 1234567890 100 := by
    rw [Rat.mkRat_eq_div]; norm_num
  rw [h90]
  refine ⟨by decide, by decide⟩

lemma startsWithL_iff (n : List Char) : ∀ h : List Char, startsWithL n h = true ↔ ∃ q, h = n ++ q := by
  induction n with
  | nil => intro h; simp [startsWithL]
  | cons a ns ih =>
    intro h
    cases h with
    | nil => simp [startsWithL]
    | cons b hs =>
      simp only [startsWithL, Bool.and_eq_true, beq_iff_eq, ih hs, List.cons_append,
        List.cons.injEq]
      constructor
      · rintro ⟨rfl, q, rfl⟩; exact ⟨q, rfl, rfl⟩
      · rintro ⟨q, rfl, rfl⟩; exact ⟨rfl, q, rfl⟩

lemma containsSub_iff (n : List Char) : ∀ h : List Char, containsSub n h = true ↔ ∃ p q, h = p ++ n ++ q := by
  intro h
  induction h with
  | nil =>
    simp only [containsSub, startsWithL_iff]
    constructor
    · rintro ⟨q, hq⟩; exact ⟨[], q, by simpa using hq⟩
    · rintro ⟨p, q, hpq⟩
      obtain ⟨h1, h2⟩ := List.append_eq_nil.mp hpq.symm
      obtain ⟨h3, h4⟩ := List.append_eq_nil.mp h1
      exact ⟨[], by simp [h4]⟩
  | cons c t ih =>
    simp only [containsSub, Bool.or_eq_true, startsWithL_iff, ih]
    constructor
    · rintro (⟨q, hq⟩ | ⟨p, q, rfl⟩)
      · exact ⟨[], q, by simpa using hq⟩
      · exact ⟨c :: p, q, by simp⟩
    · rintro ⟨p, q, hpq⟩
      cases p with
      | nil => exact Or.inl ⟨q, by simpa using hpq⟩
      | cons x p2 =>
        right
        have h2 : t = p2 ++ n ++ q := by simpa using congrArg List.tail hpq
        exact ⟨p2, q, h2⟩

lemma classifyLoop_eq_find (lower : List Char) :
    ∀ L : List (String × List String),
      classifyLoop lower L =
        (match L.find? (fun p => p.2.any (fun k => containsSub k.data lower)) with
          | some p => p.1
          | none => "UNKNOWN") := by
  intro L
  induction L with
  | nil => rfl
  | cons p L ih =>
    by_cases hp : (p.2.any (fun k => containsSub k.data lower)) = true
    · simp [classifyLoop, hp, List.find?_cons_of_pos]
    · simp only [Bool.not_eq_true] at hp
      simp [classifyLoop, hp, List.find?_cons_of_neg, ih]

/-- C3.  The classifier returns the first type of the declaration-ordered
table any of whose trigger phrases occurs as a substring of the lowercased
message (`containsSub` is proved to be exactly substring occurrence), and
`UNKNOWN` when none occurs; a message containing `paid to` (listed under
both SENT and PAYBILL) classifies as the earlier-declared SENT. -/
theorem claim_C3_classifier_first_match :
    (∀ m : String, determine_transaction_type m = classifierSpec m)
    ∧ (∀ n h : List Char, containsSub n h = true ↔ ∃ p q, h = p ++ n ++ q)
    ∧ determine_transaction_type "Confirmed. paid to ACME LTD for account 556." = "SENT"
    ∧ determine_transaction_type "Hello, this is a test." = "UNKNOWN" := by
  refine ⟨fun m => classifyLoop_eq_find (m.data.map Char.toLower) TRANSACTION_TYPES,
    fun n h => containsSub_iff n h, by decide, by decide⟩

set_option maxRecDepth 8000 in
set_option maxHeartbeats 1600000 in
/-- C6.  The amount extractor is the first-convertible-capture search over
its three patterns in declared order (`List.findSome?` of the per-pattern
first captures): a pattern that matches but whose capture fails numeric
conversion is skipped, never an error — witnessed concretely by
`"Ksh,. KES 7"`, where pattern 1 captures `,.`, conversion fails, and
pattern 2 yields `7`. -/
theorem claim_C6_amount_pattern_order :
    (∀ m : String,
      extract_amount m =
        [amtCap1 m.data, amtCap2 m.data, amtCap3 m.data].findSome? (fun oc => oc.bind convNum))
    ∧ amtCap1 ("Ksh,. KES 7".data) = some [',', '.']
    ∧ convNum [',', '.'] = none
    ∧ extract_amount "Ksh,. KES 7" = some (FloatVal.fin (7 : ℚ)) := by
  refine ⟨fun m => ?_, by decide, by decide, by decide⟩
  cases h1 : (amtCap1 m.data).bind convNum with
  | some v1 => simp [extract_amount, List.findSome?, h1]
  | none =>
    cases h2 : (amtCap2 m.data).bind convNum with
    | some v2 => simp [extract_amount, List.findSome?, h1, h2]
    | none =>
      cases h3 : (amtCap3 m.data).bind convNum with
      | some v3 => simp [extract_amount, List.findSome?, h1, h2, h3]
      | none => simp [extract_amount, List.findSome?, h1, h2, h3]

lemma mkRat_int_nonneg (a : Int) (d : Nat) (h : 0 ≤ a) : 0 ≤ mkRat a d := by
  rw [Rat.mkRat_eq_div]
  apply div_nonneg
  · exact_mod_cast h
  · positivity

lemma clampDouble_bounds (q : ℚ) (hq : 0 ≤ q) :
    (clampDouble q).Nonneg ∧
      ∀ r, clampDouble q = FloatVal.fin r → 0 ≤ r ∧ r < overflowBound := by
  unfold clampDouble
  by_cases hb : overflowBound ≤ q
  · rw [if_pos hb]
    exact ⟨trivial, fun r hr => absurd hr (by simp)⟩
  · rw [if_neg hb]
    refine ⟨hq, fun r hr => ?_⟩
    cases hr
    exact ⟨hq, lt_of_not_le hb⟩

set_option maxRecDepth 8000 in
set_option maxHeartbeats 1600000 in
lemma pyFloat_bounds (l : List Char) (v : FloatVal) (h : pyFloat l = some v) :
    v.Nonneg ∧ ∀ q, v = FloatVal.fin q → 0 ≤ q ∧ q < overflowBound := by
  simp only [pyFloat] at h
  split at h
  · split at h
    · exact absurd h (by simp)
    · rw [Option.some_inj] at h
      rw [← h]
      exact clampDouble_bounds _ (mkRat_int_nonneg _ _ (by positivity))
  · split at h
    · rw [Option.some_inj] at h
      rw [← h]
      exact clampDouble_bounds _ (mkRat_int_nonneg _ _ (by positivity))
    · exact absurd h (by simp)
  · exact absurd h (by simp)

lemma convNum_bounds (c : List Char) (v : FloatVal) (h : convNum c = some v) :
    v.Nonneg ∧ ∀ q, v = FloatVal.fin q → 0 ≤ q ∧ q < overflowBound :=
  pyFloat_bounds _ v h

lemma extract_amount_bounds (m : String) (v : FloatVal) (h : extract_amount m = some v) :
    v.Nonneg ∧ ∀ q, v = FloatVal.fin q → 0 ≤ q ∧ q < overflowBound := by
  unfold extract_amount at h
  cases h1 : (amtCap1 m.data).bind convNum with
  | some v1 =>
    rw [h1] at h
    obtain ⟨a, -, hc⟩ := Option.bind_eq_some.mp h1
    cases h
    exact convNum_bounds a v hc
  | none =>
    rw [h1] at h
    cases h2 : (amtCap2 m.data).bind convNum with
    | some v2 =>
      rw [h2] at h
      obtain ⟨a, -, hc⟩ := Option.bind_eq_some.mp h2
      cases h
      exact convNum_bounds a v hc
    | none =>
      rw [h2] at h
      obtain ⟨a, -, hc⟩ := Option.bind_eq_some.mp h
      exact convNum_bounds a v hc

lemma extract_balance_bounds (m : String) (v : FloatVal) (h : extract_balance m = some v) :
    v.Nonneg ∧ ∀ q, v = FloatVal.fin q → 0 ≤ q ∧ q < overflowBound := by
  unfold extract_balance at h
  cases h1 : (balCap1 m.data).bind convNum with
  | some v1 =>
    rw [h1] at h
    obtain ⟨a, -, hc⟩ := Option.bind_eq_some.mp h1
    cases h
    exact convNum_bounds a v hc
  | none =>
    rw [h1] at h
    cases h2 : (balCap2 m.data).bind convNum with
    | some v2 =>
      rw [h2] at h
      obtain ⟨a, -, hc⟩ := Option.bind_eq_some.mp h2
      cases h
      exact convNum_bounds a v hc
    | none =>
      rw [h2] at h
      obtain ⟨a, -, hc⟩ := Option.bind_eq_some.mp h
      exact convNum_bounds a v hc

def msgInf : String := "RK12AB34CD Ksh" ++ String.mk (List.replicate 310 '9')

set_option maxRecDepth 8000 in
set_option maxHeartbeats 1600000 in
/-- C8, counterexample.  A present amount is not always finite: on a
message carrying a 310-digit amount (`Ksh` followed by 310 nines) the
captured decimal exceeds the binary64 overflow threshold, so `float`
returns positive infinity — the record holds `amount = some inf` while
`parsed_successfully = true`, refuting the claim's never-infinite clause. -/
theorem claim_C8_counterexample :
    (parse "MPESA" msgInf 0).amount = some FloatVal.inf
    ∧ (parse "MPESA" msgInf 0).parsed_successfully = true := by
  refine ⟨by decide, by decide⟩

/-- C8, amended.  Whenever the amount or balance field of a parsed record
is present, its value is non-negative (never negative; NaN is unreachable
from digit-string captures, as the value type reflects), and it is finite
exactly on captures whose decimal value stays below the binary64 overflow
threshold `2^1024 - 2^970`: every finite value lies in
`[0, overflowBound)`, while larger captures overflow to positive
infinity. -/
theorem claim_C8_amended (s m : String) (now : Nat) (v : FloatVal) :
    ((parse s m now).amount = some v →
      v.Nonneg ∧ ∀ q, v = FloatVal.fin q → 0 ≤ q ∧ q < overflowBound)
    ∧ ((parse s m now).balance = some v →
      v.Nonneg ∧ ∀ q, v = FloatVal.fin q → 0 ≤ q ∧ q < overflowBound) :=
  ⟨fun h => extract_amount_bounds m v h, fun h => extract_balance_bounds m v h⟩

lemma containsCI_startsWith_false {n l : List Char} (h : containsCI n l = false) :
    startsWithCI n l = false := by
  cases l with
  | nil => simpa [containsCI] using h
  | cons c t =>
    simp only [containsCI, Bool.or_eq_false_iff] at h
    exact h.1

lemma containsCI_tail_false {n : List Char} {c : Char} {t : List Char}
    (h : containsCI n (c :: t) = false) : containsCI n t = false := by
  simp only [containsCI, Bool.or_eq_false_iff] at h
  exact h.2

lemma containsCI_drop_false {n : List Char} :
    ∀ (k : Nat) {l : List Char}, containsCI n l = false → containsCI n (l.drop k) = false := by
  intro k
  induction k with
  | zero => intro l h; simpa using h
  | succ k ih =>
    intro l h
    cases l with
    | nil => simpa using h
    | cons c t => simpa using ih (containsCI_tail_false h)

lemma startsWithCI_drop_false {n l : List Char} (h : containsCI n l = false) (k : Nat) :
    startsWithCI n (l.drop k) = false :=
  containsCI_startsWith_false (containsCI_drop_false k h)

lemma searchL_none_of (f : List Char → Option (List Char)) :
    ∀ l : List Char, (∀ k, f (l.drop k) = none) → searchL f l = none := by
  intro l
  induction l with
  | nil => intro h; simpa [searchL] using h 0
  | cons c t ih =>
    intro h
    have h0 : f (c :: t) = none := by simpa using h 0
    have ht : searchL f t = none := ih (fun k => by simpa using h (k + 1))
    simp [searchL, h0, ht]

lemma kshNumAt_none {r : List Char} (h : containsCI ("ksh".data) r = false) :
    kshNumAt r = none := by
  simp [kshNumAt, containsCI_startsWith_false h]

lemma amt3OfWs_none {r2 : List Char} (h : containsCI ("ksh".data) r2 = false) :
    amt3OfWs r2 = none := by
  unfold amt3OfWs
  split
  · rfl
  · exact kshNumAt_none (containsCI_drop_false _ h)

lemma amt3Of_none {r1 : List Char} (h : containsCI ("ksh".data) r1 = false) :
    amt3Of r1 = none := by
  have h1 : (if startsWithCI ("of".data) r1 then amt3OfWs (r1.drop 2) else none) = none := by
    split
    · exact amt3OfWs_none (containsCI_drop_false 2 h)
    · rfl
  unfold amt3Of
  rw [h1]
  exact kshNumAt_none h

lemma amt3Ws_none {r : List Char} (h : containsCI ("ksh".data) r = false) :
    amt3Ws r = none := by
  unfold amt3Ws
  split
  · rfl
  · exact amt3Of_none (containsCI_drop_false _ h)

lemma amt3At_none {s : List Char} (h : containsCI ("ksh".data) s = false) :
    amt3At s = none := by
  unfold amt3At
  split
  · exact amt3Ws_none (containsCI_drop_false 6 h)
  · rfl

lemma extract_amount_none {m : String}
    (hksh : containsCI ("ksh".data) m.data = false)
    (hkes : containsCI ("kes".data) m.data = false) :
    extract_amount m = none := by
  have hc1 : amtCap1 m.data = none :=
    searchL_none_of _ _ (fun k => kshNumAt_none (containsCI_drop_false k hksh))
  have hc2 : amtCap2 m.data = none :=
    searchL_none_of _ _ (fun k => by
      simp [amt2At, startsWithCI_drop_false hkes k])
  have hc3 : amtCap3 m.data = none :=
    searchL_none_of _ _ (fun k => amt3At_none (containsCI_drop_false k hksh))
  simp [extract_amount, hc1, hc2, hc3]

/-- C9.  A message with no case-insensitive occurrence of `Ksh` and none of
`KES` yields `extract_amount = none` (all three amount patterns require one
of those currency markers), so every record `parse` produces for it has
`parsed_successfully = false`. -/
theorem claim_C9_no_currency_marker (m : String)
    (hksh : containsCI ("ksh".data) m.data = false)
    (hkes : containsCI ("kes".data) m.data = false) :
    extract_amount m = none
    ∧ ∀ (s : String) (now : Nat), (parse s m now).parsed_successfully = false := by
  have ha := extract_amount_none hksh hkes
  exact ⟨ha, fun s now => by simp [parse, ha]⟩

/-- C9, witness: the unparseable scenario message contains no currency
marker, so its amount is absent and parsing is unsuccessful. -/
theorem claim_C9_witness :
    extract_amount "Hello, this is a test." = none
    ∧ ∀ (s : String) (now : Nat),
        (parse s "Hello, this is a test." now).parsed_successfully = false :=
  claim_C9_no_currency_marker "Hello, this is a test." (by decide) (by decide)

lemma startsWithCI_of_append {n1 n2 : List Char} :
    ∀ {s : List Char}, startsWithCI (n1 ++ n2) s = true → startsWithCI n1 s = true := by
  induction n1 with
  | nil => intro s _; rfl
  | cons a ns ih =>
    intro s h
    cases s with
    | nil => exact absurd h (by simp [startsWithCI])
    | cons b t =>
      simp only [List.cons_append, startsWithCI, Bool.and_eq_true] at h ⊢
      exact ⟨h.1, ih h.2⟩

lemma balThenKshScan_none : ∀ {l : List Char},
    containsCI ("balance".data) l = false → balThenKshScan l = none := by
  intro l
  induction l with
  | nil => intro _; rfl
  | cons c t ih =>
    intro h
    have hsw := containsCI_startsWith_false h
    have ht := ih (containsCI_tail_false h)
    simp [balThenKshScan, hsw, ht]

lemma bal1At_none {s : List Char} (h : containsCI ("balance".data) s = false) :
    bal1At s = none := by
  have hsw : startsWithCI ("balance ".data) s = false := by
    cases hb : startsWithCI ("balance ".data) s
    · rfl
    · exfalso
      have hd : ("balance ".data) = "balance".data ++ [' '] := by decide
      rw [hd] at hb
      have := startsWithCI_of_append hb
      rw [containsCI_startsWith_false h] at this
      exact Bool.false_ne_true this
  simp [bal1At, hsw]

lemma bal2At_none {s : List Char} (h : containsCI ("balance".data) s = false) :
    bal2At s = none := by
  unfold bal2At
  split
  · exact balThenKshScan_none (containsCI_drop_false 3 h)
  · rfl

lemma bal3At_none {s : List Char} (h : containsCI ("balance".data) s = false) :
    bal3At s = none := by
  simp [bal3At, containsCI_startsWith_false h]

/-- C10.  A message with no case-insensitive occurrence of `balance` yields
`extract_balance = none`: each of the three balance patterns contains the
literal `balance`, so the extractor only ever reads a number anchored after
that word. -/
theorem claim_C10_balance_requires_word (m : String)
    (h : containsCI ("balance".data) m.data = false) :
    extract_balance m = none := by
  have hc1 : balCap1 m.data = none :=
    searchL_none_of _ _ (fun k => bal1At_none (containsCI_drop_false k h))
  have hc2 : balCap2 m.data = none :=
    searchL_none_of _ _ (fun k => bal2At_none (containsCI_drop_false k h))
  have hc3 : balCap3 m.data = none :=
    searchL_none_of _ _ (fun k => bal3At_none (containsCI_drop_false k h))
  simp [extract_balance, hc1, hc2, hc3]

/-- C10, witness: a message that never mentions `balance` has no extracted
balance, even though it carries an amount. -/
theorem claim_C10_witness : extract_balance "You have sent Ksh50 to ANN." = none :=
  claim_C10_balance_requires_word "You have sent Ksh50 to ANN." (by decide)

lemma upperDigit_isWord {c : Char} (h : upperDigit c = true) : isWordChar c = true := by
  simp only [upperDigit, Bool.or_eq_true] at h
  rcases h with h | h
  · simp [isWordChar, Char.isAlphanum, Char.isAlpha, h]
  · simp [isWordChar, Char.isAlphanum, h]

lemma upperDigit_false_of_notWord {c : Char} (h : isWordChar c = false) :
    upperDigit c = false := by
  cases hu : upperDigit c
  · rfl
  · rw [upperDigit_isWord hu] at h
    exact absurd h (by simp)

lemma shapeCode_length {c : List Char} (h : shapeCode c = true) :
    c.length = 9 ∨ c.length = 10 := by
  cases c with
  | nil => exact absurd h (by simp [shapeCode])
  | cons a c1 =>
  cases c1 with
  | nil => exact absurd h (by simp [shapeCode])
  | cons b c2 =>
  cases c2 with
  | nil => exact absurd h (by simp [shapeCode])
  | cons d c3 =>
  cases c3 with
  | nil => exact absurd h (by simp [shapeCode])
  | cons e rest =>
    simp only [shapeCode, Bool.and_eq_true, Bool.or_eq_true, beq_iff_eq] at h
    have hr := h.1.2
    simp only [List.length_cons]
    omega

lemma shapeCode_snoc_false {c : List Char} {d : Char} (hs : shapeCode c = true)
    (hd : isWordChar d = false) : shapeCode (c ++ [d]) = false := by
  cases c with
  | nil => exact absurd hs (by simp [shapeCode])
  | cons a c1 =>
  cases c1 with
  | nil => exact absurd hs (by simp [shapeCode])
  | cons b c2 =>
  cases c2 with
  | nil => exact absurd hs (by simp [shapeCode])
  | cons e c3 =>
  cases c3 with
  | nil => exact absurd hs (by simp [shapeCode])
  | cons f rest =>
    simp only [shapeCode, Bool.and_eq_true, Bool.or_eq_true, beq_iff_eq] at hs
    obtain ⟨⟨habcd, hlen⟩, hall⟩ := hs
    simp [List.cons_append, shapeCode, List.all_append, List.length_append,
      upperDigit_false_of_notWord hd]

lemma codeAt_nil (prev : Option Char) : codeAt prev [] = none := by
  simp [codeAt, shapeCode]

lemma codeAt_some_iff (prev : Option Char) (l c : List Char) :
    codeAt prev l = some c ↔ ∃ post, l = c ++ post ∧ CodeHit prev c post := by
  constructor
  · intro h
    unfold codeAt at h
    split_ifs at h with h1 h2
    · simp only [Bool.and_eq_true] at h1
      injection h with h
      subst h
      exact ⟨l.drop 10, (List.take_append_drop 10 l).symm, h1.1.2, h1.1.1, h1.2⟩
    · simp only [Bool.and_eq_true] at h2
      injection h with h
      subst h
      exact ⟨l.drop 9, (List.take_append_drop 9 l).symm, h2.1.2, h2.1.1, h2.2⟩
  · rintro ⟨post, rfl, hs, hlb, hrb⟩
    rcases shapeCode_length hs with hlen | hlen
    · -- a nine-character match: the greedy ten-character attempt fails
      cases post with
      | nil =>
        have ht : (c ++ ([] : List Char)).take 10 = c := by
          rw [List.append_nil]
          exact List.take_of_length_le (by omega)
        have hd : (c ++ ([] : List Char)).drop 10 = [] := by
          rw [List.append_nil]
          exact List.drop_eq_nil_of_le (by omega)
        have hcond : (leftBoundary prev && shapeCode ((c ++ ([] : List Char)).take 10) &&
            rightBoundary ((c ++ ([] : List Char)).drop 10)) = true := by
          rw [ht, hd]
          simp [hs, hlb, rightBoundary]
        unfold codeAt
        rw [if_pos hcond, ht]
      | cons d t =>
        have hdw : isWordChar d = false := by
          simpa [rightBoundary] using hrb
        have h10 : (c ++ d :: t).take 10 = c ++ [d] := by
          have : 10 = c.length + 1 := by omega
          rw [this, List.take_append]
          simp
        have hcond1 : (leftBoundary prev && shapeCode ((c ++ d :: t).take 10) &&
            rightBoundary ((c ++ d :: t).drop 10)) = false := by
          rw [h10, shapeCode_snoc_false hs hdw]
          simp
        have ht9 : (c ++ d :: t).take 9 = c := List.take_left' hlen
        have hd9 : (c ++ d :: t).drop 9 = d :: t := List.drop_left' hlen
        have hcond2 : (leftBoundary prev && shapeCode ((c ++ d :: t).take 9) &&
            rightBoundary ((c ++ d :: t).drop 9)) = true := by
          rw [ht9, hd9]
          simp [hs, hlb, hrb]
        unfold codeAt
        rw [if_neg (by simp [hcond1]), if_pos hcond2, ht9]
    · -- a ten-character match: the greedy attempt succeeds
      have ht : (c ++ post).take 10 = c := List.take_left' hlen
      have hd : (c ++ post).drop 10 = post := List.drop_left' hlen
      have hcond : (leftBoundary prev && shapeCode ((c ++ post).take 10) &&
          rightBoundary ((c ++ post).drop 10)) = true := by
        rw [ht, hd]
        simp [hs, hlb, hrb]
      unfold codeAt
      rw [if_pos hcond, ht]

lemma codeAt_none_iff (prev : Option Char) (l : List Char) :
    codeAt prev l = none ↔ ∀ c post, l = c ++ post → ¬CodeHit prev c post := by
  constructor
  · intro h c post hl hhit
    have : codeAt prev l = some c := (codeAt_some_iff prev l c).mpr ⟨post, hl, hhit⟩
    rw [h] at this
    cases this
  · intro h
    cases hc : codeAt prev l with
    | none => rfl
    | some r =>
      obtain ⟨post, hl, hhit⟩ := (codeAt_some_iff prev l r).mp hc
      exact absurd hhit (h r post hl)

lemma lastOr_nil (prev : Option Char) : lastOr prev [] = prev := rfl

lemma lastOr_cons (prev : Option Char) (c : Char) (pre : List Char) :
    lastOr prev (c :: pre) = lastOr (some c) pre := rfl

lemma lastOr_getLast : ∀ (t : List Char) (c : Char) (prev : Option Char),
    lastOr prev (c :: t) = (c :: t).getLast? := by
  intro t
  induction t with
  | nil => intro c prev; simp [lastOr]
  | cons x t2 ih =>
    intro c prev
    rw [lastOr_cons, ih x (some c), List.getLast?_cons_cons]

lemma lastOr_none (pre : List Char) : lastOr none pre = pre.getLast? := by
  cases pre with
  | nil => rfl
  | cons c t => exact lastOr_getLast t c none

lemma scanCode_none_iff : ∀ (l : List Char) (prev : Option Char),
    scanCode prev l = none ↔
      ∀ pre c post, l = pre ++ c ++ post → ¬CodeHit (lastOr prev pre) c post := by
  intro l
  induction l with
  | nil =>
    intro prev
    constructor
    · intro _ pre c post hl hhit
      obtain ⟨h1, hpost⟩ := List.append_eq_nil.mp hl.symm
      obtain ⟨hpre, hc⟩ := List.append_eq_nil.mp h1
      subst hc
      exact absurd hhit.1 (by simp [shapeCode])
    · intro _
      show codeAt prev [] = none
      exact codeAt_nil prev
  | cons c0 rest ih =>
    intro prev
    cases hc : codeAt prev (c0 :: rest) with
    | some r =>
      have hscan : scanCode prev (c0 :: rest) = some r := by simp [scanCode, hc]
      rw [hscan]
      obtain ⟨post0, heq0, hhit0⟩ := (codeAt_some_iff prev (c0 :: rest) r).mp hc
      constructor
      · intro h
        cases h
      · intro h
        exact absurd hhit0 (by simpa [lastOr_nil] using h [] r post0 (by simpa using heq0))
    | none =>
      have hscan : scanCode prev (c0 :: rest) = scanCode (some c0) rest := by
        simp [scanCode, hc]
      rw [hscan, ih (some c0)]
      constructor
      · intro h pre c post hl hhit
        cases pre with
        | nil =>
          rw [lastOr_nil] at hhit
          exact (codeAt_none_iff prev (c0 :: rest)).mp hc c post (by simpa using hl) hhit
        | cons x pre2 =>
          obtain ⟨h1, hrest⟩ : c0 = x ∧ rest = pre2 ++ c ++ post := by simpa using hl
          subst h1
          rw [lastOr_cons] at hhit
          exact h pre2 c post hrest hhit
      · intro h pre c post hl hhit
        have := h (c0 :: pre) c post (by simp [hl]) (by rwa [lastOr_cons])
        exact this

lemma scanCode_some_iff : ∀ (l : List Char) (prev : Option Char) (r : List Char),
    scanCode prev l = some r ↔
      ∃ pre post, l = pre ++ r ++ post ∧ CodeHit (lastOr prev pre) r post ∧
        ∀ pre2 c2 post2, l = pre2 ++ c2 ++ post2 →
          CodeHit (lastOr prev pre2) c2 post2 → pre.length ≤ pre2.length := by
  intro l
  induction l with
  | nil =>
    intro prev r
    have hn : scanCode prev ([] : List Char) = none := codeAt_nil prev
    rw [hn]
    constructor
    · intro h
      cases h
    · rintro ⟨pre, post, hl, hhit, -⟩
      obtain ⟨h1, hpost⟩ := List.append_eq_nil.mp hl.symm
      obtain ⟨hpre, hr⟩ := List.append_eq_nil.mp h1
      subst hr
      exact absurd hhit.1 (by simp [shapeCode])
  | cons c0 rest ih =>
    intro prev r
    cases hc : codeAt prev (c0 :: rest) with
    | some r0 =>
      have hscan : scanCode prev (c0 :: rest) = some r0 := by simp [scanCode, hc]
      rw [hscan]
      obtain ⟨post0, heq0, hhit0⟩ := (codeAt_some_iff prev (c0 :: rest) r0).mp hc
      constructor
      · intro h
        injection h with h
        subst h
        refine ⟨[], post0, by simpa using heq0, by rwa [lastOr_nil], ?_⟩
        intro pre2 c2 post2 _ _
        simp
      · rintro ⟨pre, post, hl, hhit, hmin⟩
        have h0 : pre.length ≤ 0 := by
          simpa using hmin [] r0 post0 (by simpa using heq0) (by rwa [lastOr_nil])
        have hpre : pre = [] := List.length_eq_zero.mp (Nat.le_zero.mp h0)
        subst hpre
        rw [lastOr_nil] at hhit
        have hr : codeAt prev (c0 :: rest) = some r :=
          (codeAt_some_iff prev (c0 :: rest) r).mpr ⟨post, by simpa using hl, hhit⟩
        rw [hc] at hr
        exact hr
    | none =>
      have hscan : scanCode prev (c0 :: rest) = scanCode (some c0) rest := by
        simp [scanCode, hc]
      rw [hscan, ih (some c0) r]
      constructor
      · rintro ⟨pre, post, hl, hhit, hmin⟩
        refine ⟨c0 :: pre, post, by simp [hl], by rwa [lastOr_cons], ?_⟩
        intro pre2 c2 post2 hl2 hhit2
        cases pre2 with
        | nil =>
          rw [lastOr_nil] at hhit2
          exact absurd hhit2
            ((codeAt_none_iff prev (c0 :: rest)).mp hc c2 post2 (by simpa using hl2))
        | cons x pre2' =>
          obtain ⟨h1, hrest⟩ : c0 = x ∧ rest = pre2' ++ c2 ++ post2 := by simpa using hl2
          subst h1
          rw [lastOr_cons] at hhit2
          have := hmin pre2' c2 post2 hrest hhit2
          simpa using Nat.succ_le_succ this
      · rintro ⟨pre, post, hl, hhit, hmin⟩
        cases pre with
        | nil =>
          rw [lastOr_nil] at hhit
          have hr : codeAt prev (c0 :: rest) = some r :=
            (codeAt_some_iff prev (c0 :: rest) r).mpr ⟨post, by simpa using hl, hhit⟩
          rw [hc] at hr
          cases hr
        | cons x pre' =>
          obtain ⟨h1, hrest⟩ : c0 = x ∧ rest = pre' ++ r ++ post := by simpa using hl
          subst h1
          rw [lastOr_cons] at hhit
          refine ⟨pre', post, hrest, hhit, ?_⟩
          intro pre2 c2 post2 hl2 hhit2
          have := hmin (c0 :: pre2) c2 post2 (by simp [hl2]) (by rwa [lastOr_cons])
          simpa using this

/-- C5.  The transaction-code extractor returns exactly the first
whole-word occurrence of the structural shape two-uppercase, two-digit,
five-or-six uppercase-or-digit (`CodeHit`: the shape plus the word
boundaries on both sides), and `none` precisely when no such occurrence
exists: earliest occurrence wins, measured by the length of the preceding
prefix. -/
theorem claim_C5_code_first_whole_word (m : String) :
    (extract_transaction_code m = none ↔
      ∀ pre c post, m.data = pre ++ c ++ post → ¬CodeHit pre.getLast? c post)
    ∧ (∀ s : String, extract_transaction_code m = some s ↔
        ∃ pre c post, m.data = pre ++ c ++ post ∧ s = String.mk c ∧
          CodeHit pre.getLast? c post ∧
          ∀ pre2 c2 post2, m.data = pre2 ++ c2 ++ post2 →
            CodeHit pre2.getLast? c2 post2 → pre.length ≤ pre2.length) := by
  constructor
  · rw [extract_transaction_code, Option.map_eq_none', scanCode_none_iff]
    constructor
    · intro h pre c post hl hhit
      exact h pre c post hl (by rwa [lastOr_none])
    · intro h pre c post hl hhit
      exact h pre c post hl (by rwa [lastOr_none] at hhit)
  · intro s
    rw [extract_transaction_code, Option.map_eq_some']
    constructor
    · rintro ⟨r, hr, rfl⟩
      obtain ⟨pre, post, hl, hhit, hmin⟩ := (scanCode_some_iff m.data none r).mp hr
      rw [lastOr_none] at hhit
      exact ⟨pre, r, post, hl, rfl, hhit,
        fun p2 c2 q2 h2 hh2 => hmin p2 c2 q2 h2 (by rwa [lastOr_none])⟩
    · rintro ⟨pre, c, post, hl, rfl, hhit, hmin⟩
      refine ⟨c, ?_, rfl⟩
      exact (scanCode_some_iff m.data none c).mpr
        ⟨pre, post, hl, by rwa [lastOr_none],
          fun p2 c2 q2 h2 hh2 => hmin p2 c2 q2 h2 (by rwa [lastOr_none] at hh2)⟩
